import Mathlib

/-!
Shallow embedding of the belief-grid discretization pipeline of
`pomdp_tiger.ipynb` (the "tiger" POMDP reduced to a discretized MDP).

Real numbers of the source (numpy floats) are modelled by exact rationals
`ℚ`; numpy arrays by `List ℚ`.  The sparse COO triplet arrays `(data, row,
col)` built by `tiger_mdp` are modelled as a list of `Triplet`s, and the
`sum_duplicates` merge as summation of the `data` fields over all triplets
sharing a `(row, col)` key.
-/

namespace PomdpTiger

/-- Observation model, from the notebook:
`prob_TL(belief, noise_prob_L=0.15, noise_prob_R=0.15) =
 (1-noise_prob_L) * (1-belief) + noise_prob_R * belief`.
The keyword defaults are `0.15 = 3/20`; callers inside `tiger_mdp` use the
defaults, so the parameters are explicit here and instantiated at `3/20`
there. -/
def prob_TL (belief noise_prob_L noise_prob_R : ℚ) : ℚ :=
  (1 - noise_prob_L) * (1 - belief) + noise_prob_R * belief

/-- Observation model, from the notebook:
`prob_TR(belief, noise_prob_L=0.15, noise_prob_R=0.15) =
 noise_prob_L * (1-belief) + (1-noise_prob_R) * belief`. -/
def prob_TR (belief noise_prob_L noise_prob_R : ℚ) : ℚ :=
  noise_prob_L * (1 - belief) + (1 - noise_prob_R) * belief

/-- Division as numpy floating-point division behaves in the source: a zero
denominator is not guarded and silently produces a non-finite value
(`nan` or `±inf`), modelled here by `none`; a nonzero denominator produces
the exact quotient. -/
def npDiv (x y : ℚ) : Option ℚ :=
  if y = 0 then none else some (x / y)

/-- Belief updater, from the notebook:
`bayes_update_TL(belief, ...) = noise_prob_R * belief / prob_TL(belief, ...)`.
The division is unguarded in the source; see `npDiv`. -/
def bayes_update_TL (belief noise_prob_L noise_prob_R : ℚ) : Option ℚ :=
  npDiv (noise_prob_R * belief) (prob_TL belief noise_prob_L noise_prob_R)

/-- Belief updater, from the notebook:
`bayes_update_TR(belief, ...) = (1-noise_prob_R) * belief / prob_TR(belief, ...)`. -/
def bayes_update_TR (belief noise_prob_L noise_prob_R : ℚ) : Option ℚ :=
  npDiv ((1 - noise_prob_R) * belief) (prob_TR belief noise_prob_L noise_prob_R)

/-- From `nearest_idx`: `mid_points = (grid[:-1] + grid[1:]) / 2`, the
element-wise midpoints of consecutive grid values. -/
def mid_points (grid : List ℚ) : List ℚ :=
  List.zipWith (fun a b => (a + b) / 2) grid grid.tail

/-- `np.searchsorted(a, v)` with the default `side='left'` on a sorted array
`a` returns the leftmost insertion index, i.e. the number of elements of `a`
strictly less than `v`. -/
def searchsorted (a : List ℚ) (v : ℚ) : ℕ :=
  a.countP (fun x => decide (x < v))

/-- From the notebook:
`def nearest_idx(grid, v): mid_points = (grid[:-1] + grid[1:]) / 2;
 return np.searchsorted(mid_points, v)`. -/
def nearest_idx (grid : List ℚ) (v : ℚ) : ℕ :=
  searchsorted (mid_points grid) v

/-- Minimum of a list (the reduction `min` performs over a nonempty numpy
array); junk value `0` on the empty list, on which numpy would error. -/
def list_min : List ℚ → ℚ
  | [] => 0
  | x :: xs => xs.foldl min x

/-- `np.argmin`: index of the first occurrence of the minimum value; junk
value `0` on the empty list, on which numpy would error. -/
def np_argmin : List ℚ → ℕ
  | [] => 0
  | [_] => 0
  | x :: y :: ys => if x ≤ list_min (y :: ys) then 0 else np_argmin (y :: ys) + 1

/-- From `tiger_mdp`: `prob_half_idx = np.abs(belief_grid-1/2).argmin()`,
the grid index whose belief value is nearest to `1/2` (first index on ties). -/
def prob_half_idx (grid : List ℚ) : ℕ :=
  np_argmin (grid.map (fun b => |b - 1/2|))

/-- One COO triplet of the transition matrix built by `tiger_mdp`: an entry
of the parallel arrays `(data, row, col)`. -/
structure Triplet where
  data : ℚ
  row : ℕ
  col : ℕ

/-- The reward constant `reward = 10` hardcoded in `tiger_mdp`. -/
def tiger_reward : ℚ := 10

/-- The penalty constant `penalty = -100` hardcoded in `tiger_mdp`. -/
def tiger_penalty : ℚ := -100

/-- The listening cost constant `cost = -1` hardcoded in `tiger_mdp`. -/
def tiger_cost : ℚ := -1

/-- The reward vector of `tiger_mdp`: the `(grid_size, num_actions)` array
`R` with `R[:,0] = cost`, `R[:,1] = penalty*(1-b) + reward*b`,
`R[:,2] = reward*(1-b) + penalty*b`, reshaped row-major to length
`L = grid_size * num_actions`, so entry `g * 3 + a` is `R[g, a]`. -/
def tiger_R (grid : List ℚ) : List ℚ :=
  grid.flatMap (fun b =>
    [tiger_cost,
     tiger_penalty * (1 - b) + tiger_reward * b,
     tiger_reward * (1 - b) + tiger_penalty * b])

/-- The COO triplets assembled by `tiger_mdp` (with `num_actions = 3` and
`L = grid_size * num_actions`), in array-position order.  The four segments
of the parallel arrays `(data, row, col)`, each of length `grid_size`, are:
positions `[0, G)` — listen (`a = 0`), observe `TL`: data `prob_TL(b_g)`,
rows `np.arange(0, L, 3) = 3g`, cols `nearest_idx(grid, bayes_update_TL(b_g))`;
positions `[G, 2G)` — listen, observe `TR`, likewise with `TR`;
positions `[2G, 3G)` and `[3G, 4G)` — door actions `a = 1, 2`: data `1`,
rows `np.arange(a, L, 3) = 3g + a`, cols `prob_half_idx`.
`tiger_mdp` calls the observation/update functions with their keyword
defaults `noise_prob_L = noise_prob_R = 3/20`; the noise parameters are kept
explicit here (at the defaults the updates never hit a zero denominator on
a grid inside `[0,1]`, so the `Option.getD 0` fallback is never taken). -/
def tiger_triplets (grid : List ℚ) (pL pR : ℚ) : List Triplet :=
  (List.range grid.length).map (fun g =>
    ⟨prob_TL (grid.getD g 0) pL pR, 3 * g,
     nearest_idx grid ((bayes_update_TL (grid.getD g 0) pL pR).getD 0)⟩)
  ++ (List.range grid.length).map (fun g =>
    ⟨prob_TR (grid.getD g 0) pL pR, 3 * g,
     nearest_idx grid ((bayes_update_TR (grid.getD g 0) pL pR).getD 0)⟩)
  ++ (List.range grid.length).map (fun g =>
    ⟨1, 3 * g + 1, prob_half_idx grid⟩)
  ++ (List.range grid.length).map (fun g =>
    ⟨1, 3 * g + 2, prob_half_idx grid⟩)

/-- The transition operator entry at `(r, c)` after `Q.sum_duplicates()`:
all triplets sharing the key `(row, col) = (r, c)` are merged by summing
their `data` fields. -/
def Q_val (ts : List Triplet) (r c : ℕ) : ℚ :=
  ((ts.filter (fun t => t.row == r && t.col == c)).map (fun t => t.data)).sum

/-- The total probability mass the triplet list assigns to row `r`
(independent of duplicate merging). -/
def row_data (ts : List Triplet) (r : ℕ) : ℚ :=
  ((ts.filter (fun t => t.row == r)).map (fun t => t.data)).sum

/-- `s_indices = np.repeat(np.arange(grid_size), num_actions)`:
the grid index of each StateActionPair, in flattened order. -/
def s_indices (G : ℕ) : List ℕ :=
  (List.range G).flatMap (fun g => [g, g, g])

/-- `a_indices = np.tile(np.arange(num_actions), grid_size)`:
the action of each StateActionPair, in flattened order. -/
def a_indices (G : ℕ) : List ℕ :=
  (List.range G).flatMap (fun _ => [0, 1, 2])

/-- The MDP descriptor returned by `tiger_mdp(belief_grid, beta=0.95)`:
reward vector, transition triplets (noise at the keyword defaults `3/20`),
discount factor, and the state/action index vectors. -/
def tiger_mdp (grid : List ℚ) (beta : ℚ) :
    List ℚ × List Triplet × ℚ × List ℕ × List ℕ :=
  (tiger_R grid, tiger_triplets grid (3/20) (3/20), beta,
   s_indices grid.length, a_indices grid.length)

/-- `belief_grid = np.linspace(0, 1, grid_size)`: `np.linspace(0, 1, G)`
returns, for `G ≥ 2`, the `G` values `i / (G-1)` for `i = 0, ..., G-1`;
for `G = 1` the single value `[0]` (the start point); for `G = 0` the empty
array.  It raises no error for `G < 2`. -/
def belief_grid (G : ℕ) : List ℚ :=
  if G = 1 then [0]
  else (List.range G).map (fun (i : ℕ) => (i : ℚ) / ((G : ℚ) - 1))

/-- The index positions written by a slice assignment
`arr[lo : lo + n] = ...` on the COO arrays of `tiger_mdp`. -/
def slice_idx (lo n : ℕ) : Finset ℕ :=
  (Finset.range n).image (fun i => lo + i)

/-- The set of positions of the arrays `data`, `row`, `col` (each allocated
with `np.empty(grid_size*(num_actions+1))`, `num_actions = 3`) written by
`tiger_mdp`: the listen branch (`a = 0`) writes the slices
`[a*G, (a+1)*G)` and `[(a+1)*G, (a+2)*G)`; the loop over `a in [1, 2]`
writes the slices `[(a+1)*G, (a+2)*G)`. -/
def tiger_written (G : ℕ) : Finset ℕ :=
  slice_idx (0 * G) G ∪ slice_idx ((0 + 1) * G) G
    ∪ slice_idx ((1 + 1) * G) G ∪ slice_idx ((2 + 1) * G) G

/-! Helper lemmas about `countP`, `mid_points` and `nearest_idx`. -/

lemma prob_TL_add_prob_TR (b pL pR : ℚ) :
    prob_TL b pL pR + prob_TR b pL pR = 1 := by
  unfold prob_TL prob_TR; ring

lemma countP_lt_eq_zero (v : ℚ) (l : List ℚ)
    (h : ∀ j, j < l.length → ¬ l.getD j 0 < v) :
    l.countP (fun x => decide (x < v)) = 0 := by
  induction l with
  | nil => rfl
  | cons x xs ih =>
    have hx : ¬ x < v := by simpa using h 0 (by simp)
    have ih' := ih (fun j hj => by
      simpa using h (j + 1) (by simp; omega))
    simp [List.countP_cons, hx, ih']

lemma countP_lt_split (v : ℚ) (l : List ℚ) (k : ℕ) (hk : k ≤ l.length)
    (h1 : ∀ j, j < k → l.getD j 0 < v)
    (h2 : ∀ j, k ≤ j → j < l.length → ¬ l.getD j 0 < v) :
    l.countP (fun x => decide (x < v)) = k := by
  induction l generalizing k with
  | nil =>
    simp only [List.length_nil, Nat.le_zero] at hk
    simp [hk]
  | cons x xs ih =>
    cases k with
    | zero => exact countP_lt_eq_zero v (x :: xs) (fun j hj => h2 j (Nat.zero_le j) hj)
    | succ k =>
      have hx : x < v := by simpa using h1 0 (Nat.succ_pos k)
      have hrec := ih k (by simpa [Nat.succ_le_succ_iff] using hk)
        (fun j hj => by simpa using h1 (j + 1) (by omega))
        (fun j hjk hj => by
          simpa using h2 (j + 1) (by omega) (by simp; omega))
      simp [List.countP_cons, hx, hrec]

lemma length_mid_points (grid : List ℚ) :
    (mid_points grid).length = grid.length - 1 := by
  simp only [mid_points, List.length_zipWith, List.length_tail]
  omega

lemma mid_points_getD (grid : List ℚ) (j : ℕ) (hj : j + 1 < grid.length) :
    (mid_points grid).getD j 0 = (grid.getD j 0 + grid.getD (j + 1) 0) / 2 := by
  have hj' : j < (mid_points grid).length := by rw [length_mid_points]; omega
  have hjt : j < grid.tail.length := by simp [List.length_tail]; omega
  have hjg : j < grid.length := by omega
  rw [List.getD_eq_getElem _ _ hj']
  rw [List.getD_eq_getElem _ _ hjg, List.getD_eq_getElem _ _ hj]
  simp only [mid_points]
  rw [List.getElem_zipWith]
  rw [List.getElem_tail _ _ hjt]

lemma pairwise_getD_lt (grid : List ℚ) (hmono : grid.Pairwise (· < ·))
    {i j : ℕ} (hij : i < j) (hj : j < grid.length) :
    grid.getD i 0 < grid.getD j 0 := by
  have hi : i < grid.length := lt_trans hij hj
  rw [List.getD_eq_getElem _ _ hi, List.getD_eq_getElem _ _ hj]
  exact List.pairwise_iff_getElem.mp hmono i j hi hj hij

lemma nearest_idx_eq (grid : List ℚ) (v : ℚ) (g : ℕ)
    (hg : g ≤ (mid_points grid).length)
    (h1 : ∀ j, j < g → (mid_points grid).getD j 0 < v)
    (h2 : ∀ j, g ≤ j → j < (mid_points grid).length →
      ¬ (mid_points grid).getD j 0 < v) :
    nearest_idx grid v = g :=
  countP_lt_split v (mid_points grid) g hg h1 h2

lemma nearest_idx_lt (grid : List ℚ) (hG : 1 ≤ grid.length) (v : ℚ) :
    nearest_idx grid v < grid.length := by
  have h := List.countP_le_length (l := mid_points grid)
    (p := fun x => decide (x < v))
  have hl : (mid_points grid).length = grid.length - 1 := length_mid_points grid
  unfold nearest_idx searchsorted
  omega

/-- C4: for every belief `b ∈ [0,1]` and noise parameters `pL, pR ∈ [0,1]`,
the two observation probabilities sum to exactly 1:
`prob_TL(b,pL,pR) + prob_TR(b,pL,pR) = 1`. -/
theorem prob_sum_one (b pL pR : ℚ) (_hb : 0 ≤ b ∧ b ≤ 1)
    (_hL : 0 ≤ pL ∧ pL ≤ 1) (_hR : 0 ≤ pR ∧ pR ≤ 1) :
    prob_TL b pL pR + prob_TR b pL pR = 1 :=
  prob_TL_add_prob_TR b pL pR

/-- C4 witness: the sum is 1 at `b = 1/2` with the default noise `3/20`. -/
theorem prob_sum_one_witness :
    prob_TL (1/2) (3/20) (3/20) + prob_TR (1/2) (3/20) (3/20) = 1 :=
  prob_sum_one (1/2) (3/20) (3/20) (by norm_num) (by norm_num) (by norm_num)

/-- C5: the nearest-grid-index resolver is idempotent on the grid itself:
for every strictly increasing grid and every index `g < G`,
`nearest_idx grid grid[g] = g` exactly. -/
theorem nearest_idx_idempotent (grid : List ℚ) (hmono : grid.Pairwise (· < ·))
    (g : ℕ) (hg : g < grid.length) :
    nearest_idx grid (grid.getD g 0) = g := by
  apply nearest_idx_eq
  · rw [length_mid_points]; omega
  · intro j hj
    have hj1 : j + 1 < grid.length := by omega
    rw [mid_points_getD _ _ hj1]
    have h1 : grid.getD j 0 < grid.getD g 0 :=
      pairwise_getD_lt _ hmono (by omega) hg
    have h2 : grid.getD (j + 1) 0 ≤ grid.getD g 0 := by
      rcases Nat.eq_or_lt_of_le (show j + 1 ≤ g by omega) with he | hl
      · rw [he]
      · exact le_of_lt (pairwise_getD_lt _ hmono hl hg)
    linarith
  · intro j hjg hj
    rw [length_mid_points] at hj
    have hj1 : j + 1 < grid.length := by omega
    rw [mid_points_getD _ _ hj1, not_lt]
    have h1 : grid.getD g 0 ≤ grid.getD j 0 := by
      rcases Nat.eq_or_lt_of_le hjg with he | hl
      · rw [he]
      · exact le_of_lt (pairwise_getD_lt _ hmono hl (by omega))
    have h2 : grid.getD g 0 < grid.getD (j + 1) 0 :=
      pairwise_getD_lt _ hmono (by omega) hj1
    linarith

/-- C5 witness: resolving the grid value at index 1 of `[0, 1/2, 1]`
returns 1. -/
theorem nearest_idx_idempotent_witness :
    nearest_idx [(0:ℚ), 1/2, 1] (([(0:ℚ), 1/2, 1]).getD 1 0) = 1 :=
  nearest_idx_idempotent [(0:ℚ), 1/2, 1] (by norm_num) 1 (by norm_num)

/-- C3 counterexample: on the strictly increasing grid `[0, 1]`, the value
`(grid[0] + grid[1]) / 2 = 1/2` is exactly the midpoint between the two
consecutive grid values, yet `nearest_idx` returns the LOWER index `0`,
not the upper index `0 + 1` the claim states: `np.searchsorted` with
`side='left'` counts midpoints strictly less than `v`, and the midpoint
itself is not strictly less than `v`. -/
theorem nearest_idx_midpoint_counterexample :
    nearest_idx [(0:ℚ), 1] ((([(0:ℚ), 1]).getD 0 0 + ([(0:ℚ), 1]).getD 1 0) / 2) = 0 ∧
      (0 : ℕ) ≠ 0 + 1 := by
  constructor
  · simp [nearest_idx, searchsorted, mid_points, List.countP_cons, List.countP_nil]
  · omega

/-- C3 (amended): for every strictly increasing grid and every value `v`
exactly equal to the midpoint between consecutive grid values `grid[g]`
and `grid[g+1]`, `nearest_idx` returns the LOWER of the two adjacent
indices, `g` (ties at an exact midpoint round down, since the resolved
index is the count of midpoints strictly less than `v`). -/
theorem nearest_idx_midpoint_lower (grid : List ℚ)
    (hmono : grid.Pairwise (· < ·)) (g : ℕ) (hg : g + 1 < grid.length) :
    nearest_idx grid ((grid.getD g 0 + grid.getD (g + 1) 0) / 2) = g := by
  apply nearest_idx_eq
  · rw [length_mid_points]; omega
  · intro j hj
    have hj1 : j + 1 < grid.length := by omega
    rw [mid_points_getD _ _ hj1]
    have h1 : grid.getD j 0 < grid.getD g 0 :=
      pairwise_getD_lt _ hmono (by omega) (by omega)
    have h2 : grid.getD (j + 1) 0 ≤ grid.getD g 0 := by
      rcases Nat.eq_or_lt_of_le (show j + 1 ≤ g by omega) with he | hl
      · rw [he]
      · exact le_of_lt (pairwise_getD_lt _ hmono hl (by omega))
    have h3 : grid.getD g 0 < grid.getD (g + 1) 0 :=
      pairwise_getD_lt _ hmono (by omega) hg
    linarith
  · intro j hjg hj
    rw [length_mid_points] at hj
    have hj1 : j + 1 < grid.length := by omega
    rw [mid_points_getD _ _ hj1, not_lt]
    have h1 : grid.getD g 0 ≤ grid.getD j 0 := by
      rcases Nat.eq_or_lt_of_le hjg with he | hl
      · rw [he]
      · exact le_of_lt (pairwise_getD_lt _ hmono hl (by omega))
    have h2 : grid.getD (g + 1) 0 ≤ grid.getD (j + 1) 0 := by
      rcases Nat.eq_or_lt_of_le (show g + 1 ≤ j + 1 by omega) with he | hl
      · rw [he]
      · exact le_of_lt (pairwise_getD_lt _ hmono hl hj1)
    linarith

/-- C3 (amended) witness: on the grid `[0, 1/2, 1]`, the exact midpoint
`(1/2 + 1) / 2 = 3/4` between `grid[1]` and `grid[2]` resolves to the
lower index 1. -/
theorem nearest_idx_midpoint_lower_witness :
    nearest_idx [(0:ℚ), 1/2, 1]
      ((([(0:ℚ), 1/2, 1]).getD 1 0 + ([(0:ℚ), 1/2, 1]).getD 2 0) / 2) = 1 :=
  nearest_idx_midpoint_lower [(0:ℚ), 1/2, 1] (by norm_num) 1 (by norm_num)

/-- C7 counterexample: the grid construction `np.linspace(0, 1, G)` does
NOT fail for a target count `G < 2`: at `G = 1` it returns the length-1
grid `[0]` (and at `G = 0` the empty grid); no `InvalidConfiguration`
condition exists anywhere in the code. -/
theorem belief_grid_small_counterexample :
    belief_grid 1 = [(0:ℚ)] ∧ (belief_grid 1).length = 1 := by
  constructor
  · rfl
  · rfl

/-- C7 (amended): for `G ≥ 2`, `belief_grid G` returns `G` evenly spaced
values from 0 to 1 inclusive, the `i`-th being `i / (G-1)` (so the spacing
is `1/(G-1)`); for `G < 2` the construction does not fail: it returns
`[0]` for `G = 1` and the empty grid for `G = 0` (i.e. `G` copies of 0). -/
theorem belief_grid_spec (G : ℕ) :
    (2 ≤ G → (belief_grid G).length = G ∧
      ∀ i, i < G → (belief_grid G).getD i 0 = (i : ℚ) / ((G : ℚ) - 1)) ∧
    (G < 2 → belief_grid G = List.replicate G 0) := by
  constructor
  · intro hG
    have hG1 : G ≠ 1 := by omega
    have hlen : (belief_grid G).length = G := by
      rw [belief_grid, if_neg hG1, List.length_map, List.length_range]
    refine ⟨hlen, ?_⟩
    intro i hi
    rw [List.getD_eq_getElem _ _ (by rw [hlen]; exact hi)]
    simp only [belief_grid, if_neg hG1]
    rw [List.getElem_map, List.getElem_range]
  · intro hG
    interval_cases G
    · rfl
    · rfl

/-- C7 (amended) witness: at `G = 3` the grid has length 3 with second
value `1/2`, and at `G = 1` the grid is `[0]`. -/
theorem belief_grid_spec_witness :
    (belief_grid 3).length = 3 ∧ (belief_grid 3).getD 1 0 = (1 : ℚ) / ((3 : ℚ) - 1) ∧
      belief_grid 1 = List.replicate 1 0 := by
  refine ⟨((belief_grid_spec 3).1 (by norm_num)).1,
    ((belief_grid_spec 3).1 (by norm_num)).2 1 (by norm_num),
    (belief_grid_spec 1).2 (by norm_num)⟩

/-- C8 counterexample: at the degenerate noise configuration
`noise_prob_L = 1`, `noise_prob_R = 0` and belief `1/2`, the denominator
`prob_TL` of the Bayesian update is exactly 0, and `bayes_update_TL`
performs the division anyway, silently producing a non-finite value
(`none` models numpy's nan/inf); no `UndefinedUpdate` condition is raised
— the code has no error channel at all. -/
theorem bayes_update_silent_counterexample :
    prob_TL (1/2) 1 0 = 0 ∧ bayes_update_TL (1/2) 1 0 = none := by
  constructor
  · norm_num [prob_TL]
  · simp [bayes_update_TL, npDiv, prob_TL]

/-- C8 (amended): whenever the denominator of the Bayesian update (the
corresponding observation probability) is exactly zero, `bayes_update_TL`
resp. `bayes_update_TR` silently produce a non-finite value (modeled
`none`) instead of raising any condition. -/
theorem bayes_update_zero_denominator (b pL pR : ℚ) :
    (prob_TL b pL pR = 0 → bayes_update_TL b pL pR = none) ∧
    (prob_TR b pL pR = 0 → bayes_update_TR b pL pR = none) := by
  constructor
  · intro h
    simp [bayes_update_TL, npDiv, h]
  · intro h
    simp [bayes_update_TR, npDiv, h]

/-- C8 (amended) witness: at `b = 1/2`, `pL = 1`, `pR = 0` the denominator
`prob_TL` is zero and the update is the silent non-finite marker. -/
theorem bayes_update_zero_denominator_witness :
    bayes_update_TL (1/2) 1 0 = none :=
  (bayes_update_zero_denominator (1/2) 1 0).1 (by norm_num [prob_TL])

/-! Helper lemmas about `list_min`, `np_argmin` and `prob_half_idx`. -/

lemma foldl_min_le_init (xs : List ℚ) (a : ℚ) : xs.foldl min a ≤ a := by
  induction xs generalizing a with
  | nil => exact le_refl a
  | cons y ys ih =>
    calc (y :: ys).foldl min a = ys.foldl min (min a y) := by rw [List.foldl_cons]
    _ ≤ min a y := ih (min a y)
    _ ≤ a := min_le_left a y

lemma foldl_min_le_mem (xs : List ℚ) (a x : ℚ) (hx : x ∈ xs) :
    xs.foldl min a ≤ x := by
  induction xs generalizing a with
  | nil => simp at hx
  | cons y ys ih =>
    rw [List.foldl_cons]
    rcases List.mem_cons.mp hx with he | hm
    · calc ys.foldl min (min a y) ≤ min a y := foldl_min_le_init ys (min a y)
      _ ≤ y := min_le_right a y
      _ = x := he.symm
    · exact ih (min a y) hm

lemma foldl_min_pull (xs : List ℚ) (a b : ℚ) :
    xs.foldl min (min a b) = min a (xs.foldl min b) := by
  induction xs generalizing b with
  | nil => rfl
  | cons y ys ih =>
    rw [List.foldl_cons, List.foldl_cons, min_assoc, ih (min b y)]

lemma list_min_cons (x y : ℚ) (zs : List ℚ) :
    list_min (x :: y :: zs) = min x (list_min (y :: zs)) := by
  show (y :: zs).foldl min x = min x (zs.foldl min y)
  rw [List.foldl_cons, foldl_min_pull]

lemma list_min_le (xs : List ℚ) (x : ℚ) (hx : x ∈ xs) : list_min xs ≤ x := by
  cases xs with
  | nil => simp at hx
  | cons a ys =>
    rcases List.mem_cons.mp hx with he | hm
    · exact he ▸ foldl_min_le_init ys a
    · exact foldl_min_le_mem ys a x hm

lemma np_argmin_lt (xs : List ℚ) (h : xs ≠ []) : np_argmin xs < xs.length := by
  induction xs with
  | nil => exact absurd rfl h
  | cons x ys ih =>
    cases ys with
    | nil => simp [np_argmin]
    | cons y zs =>
      rw [np_argmin]
      split
      · simp
      · have hrec := ih (by simp)
        simp only [List.length_cons] at hrec ⊢
        omega

lemma getD_np_argmin (xs : List ℚ) (h : xs ≠ []) :
    xs.getD (np_argmin xs) 0 = list_min xs := by
  induction xs with
  | nil => exact absurd rfl h
  | cons x ys ih =>
    cases ys with
    | nil => rfl
    | cons y zs =>
      rw [np_argmin, list_min_cons]
      split
      · rename_i hle
        simp only [List.getD_cons_zero]
        exact (min_eq_left hle).symm
      · rename_i hgt
        have hlt : list_min (y :: zs) < x := lt_of_not_le hgt
        rw [List.getD_cons_succ, ih (by simp), min_eq_right (le_of_lt hlt)]

lemma np_argmin_min (xs : List ℚ) (h : xs ≠ []) (i : ℕ) (hi : i < xs.length) :
    xs.getD (np_argmin xs) 0 ≤ xs.getD i 0 := by
  rw [getD_np_argmin xs h]
  apply list_min_le
  rw [List.getD_eq_getElem _ _ hi]
  exact List.getElem_mem hi

lemma getD_map_abs (grid : List ℚ) (i : ℕ) (hi : i < grid.length) :
    (grid.map (fun b => |b - 1/2|)).getD i 0 = |grid.getD i 0 - 1/2| := by
  have hi' : i < (grid.map (fun b => |b - 1/2|)).length := by
    rw [List.length_map]; exact hi
  rw [List.getD_eq_getElem _ _ hi', List.getD_eq_getElem _ _ hi, List.getElem_map]

lemma prob_half_idx_lt (grid : List ℚ) (h : grid ≠ []) :
    prob_half_idx grid < grid.length := by
  have hm : grid.map (fun b => |b - 1/2|) ≠ [] := by
    simpa using h
  have := np_argmin_lt _ hm
  rw [List.length_map] at this
  exact this

lemma prob_half_idx_min (grid : List ℚ) (h : grid ≠ []) (i : ℕ)
    (hi : i < grid.length) :
    |grid.getD (prob_half_idx grid) 0 - 1/2| ≤ |grid.getD i 0 - 1/2| := by
  have hm : grid.map (fun b => |b - 1/2|) ≠ [] := by simpa using h
  have hk : prob_half_idx grid < grid.length := prob_half_idx_lt grid h
  have := np_argmin_min (grid.map (fun b => |b - 1/2|)) hm i
    (by rw [List.length_map]; exact hi)
  rw [show np_argmin (grid.map (fun b => |b - 1/2|)) = prob_half_idx grid from rfl,
    getD_map_abs grid _ hk, getD_map_abs grid i hi] at this
  exact this

lemma prob_half_idx_exact (grid : List ℚ) (hmono : grid.Pairwise (· < ·))
    (j : ℕ) (hj : j < grid.length) (hval : grid.getD j 0 = 1/2) :
    prob_half_idx grid = j := by
  have hne : grid ≠ [] := by
    intro he
    rw [he] at hj
    simp at hj
  have hk : prob_half_idx grid < grid.length := prob_half_idx_lt grid hne
  have hmin := prob_half_idx_min grid hne j hj
  rw [hval] at hmin
  simp only [sub_self, abs_zero] at hmin
  have habs : |grid.getD (prob_half_idx grid) 0 - 1/2| = 0 :=
    le_antisymm hmin (abs_nonneg _)
  have hvk : grid.getD (prob_half_idx grid) 0 = 1/2 := by
    have := abs_eq_zero.mp habs
    linarith
  rcases lt_trichotomy (prob_half_idx grid) j with hlt | he | hgt
  · have := pairwise_getD_lt grid hmono hlt hj
    rw [hvk, hval] at this
    exact absurd this (lt_irrefl _)
  · exact he
  · have := pairwise_getD_lt grid hmono hgt hk
    rw [hvk, hval] at this
    exact absurd this (lt_irrefl _)

/-! Helper lemmas for the COO triplet list of `tiger_mdp`: computing the
set of triplets in a given row and the merged row sums. -/

lemma filter_range_nil (n : ℕ) (p : ℕ → Bool) (h : ∀ x, x < n → p x = false) :
    (List.range n).filter p = [] := by
  induction n with
  | zero => rfl
  | succ n ih =>
    rw [List.range_succ, List.filter_append]
    rw [ih (fun x hx => h x (by omega))]
    simp [h n (by omega)]

lemma filter_range_singleton (n g : ℕ) (p : ℕ → Bool) (hg : g < n)
    (hp : p g = true) (h : ∀ x, x < n → x ≠ g → p x = false) :
    (List.range n).filter p = [g] := by
  induction n with
  | zero => omega
  | succ n ih =>
    rw [List.range_succ, List.filter_append]
    by_cases hgn : g = n
    · rw [filter_range_nil n p (fun x hx => h x (by omega) (by omega))]
      subst hgn
      simp [hp]
    · have hg' : g < n := by omega
      rw [ih hg' (fun x hx hxg => h x (by omega) hxg)]
      simp [h n (by omega) (fun he => hgn he.symm)]

lemma row_data_eq_filter (ts : List Triplet) (r : ℕ) :
    row_data ts r = ((ts.filter (fun t => t.row == r)).map (fun t => t.data)).sum :=
  rfl

lemma Q_val_cons (t : Triplet) (ts : List Triplet) (r c : ℕ) :
    Q_val (t :: ts) r c =
      (if t.row = r ∧ t.col = c then t.data else 0) + Q_val ts r c := by
  simp only [Q_val, List.filter_cons]
  by_cases h1 : t.row = r
  · by_cases h2 : t.col = c
    · simp [h1, h2]
    · simp [h1, h2]
  · simp [h1]

lemma row_data_cons (t : Triplet) (ts : List Triplet) (r : ℕ) :
    row_data (t :: ts) r = (if t.row = r then t.data else 0) + row_data ts r := by
  simp only [row_data, List.filter_cons]
  by_cases h1 : t.row = r
  · simp [h1]
  · simp [h1]

lemma sum_Q_val (ts : List Triplet) (r G : ℕ) (h : ∀ t ∈ ts, t.col < G) :
    ∑ c ∈ Finset.range G, Q_val ts r c = row_data ts r := by
  induction ts with
  | nil => simp [Q_val, row_data]
  | cons t ts ih =>
    have hcol : t.col < G := h t (List.mem_cons_self t ts)
    have ih' := ih (fun u hu => h u (List.mem_cons_of_mem t hu))
    calc ∑ c ∈ Finset.range G, Q_val (t :: ts) r c
        = ∑ c ∈ Finset.range G,
            ((if t.row = r ∧ t.col = c then t.data else 0) + Q_val ts r c) :=
          Finset.sum_congr rfl (fun c _ => Q_val_cons t ts r c)
      _ = (∑ c ∈ Finset.range G, if t.row = r ∧ t.col = c then t.data else 0)
            + ∑ c ∈ Finset.range G, Q_val ts r c := Finset.sum_add_distrib
      _ = (if t.row = r then t.data else 0) + row_data ts r := by
          rw [ih']
          congr 1
          by_cases h1 : t.row = r
          · simp only [h1, true_and]
            rw [Finset.sum_ite_eq (Finset.range G) t.col (fun _ => t.data)]
            simp [hcol]
          · simp [h1]
      _ = row_data (t :: ts) r := (row_data_cons t ts r).symm

lemma tiger_triplets_col_lt (grid : List ℚ) (pL pR : ℚ)
    (hG : 1 ≤ grid.length) :
    ∀ t ∈ tiger_triplets grid pL pR, t.col < grid.length := by
  intro t ht
  have hne : grid ≠ [] := by
    intro he
    rw [he] at hG
    simp at hG
  simp only [tiger_triplets, List.mem_append, List.mem_map,
    List.mem_range] at ht
  rcases ht with ((⟨g, hg, he⟩ | ⟨g, hg, he⟩) | ⟨g, hg, he⟩) | ⟨g, hg, he⟩ <;>
    rw [← he] <;>
    first
      | exact nearest_idx_lt grid hG _
      | exact prob_half_idx_lt grid hne

lemma triplet_row_mk (d : ℚ) (r c : ℕ) : (Triplet.mk d r c).row = r := rfl

lemma filter_row_seg (G : ℕ) (f : ℕ → Triplet) (r : ℕ) :
    ((List.range G).map f).filter (fun t => t.row == r) =
      ((List.range G).filter (fun g => (f g).row == r)).map f :=
  List.filter_map f (List.range G)

lemma filter_seg_nil (d : ℕ → ℚ) (rf : ℕ → ℕ) (c : ℕ → ℕ) (G : ℕ) (r : ℕ)
    (h : ∀ x, x < G → rf x ≠ r) :
    ((List.range G).map (fun x => (⟨d x, rf x, c x⟩ : Triplet))).filter
      (fun t => t.row == r) = [] := by
  rw [filter_row_seg]
  rw [filter_range_nil G _ (fun x hx => by
    simp only [triplet_row_mk, beq_eq_false_iff_ne, ne_eq]
    exact h x hx)]
  exact List.map_nil

lemma filter_seg_singleton (d : ℕ → ℚ) (rf : ℕ → ℕ) (c : ℕ → ℕ) (G g : ℕ)
    (r : ℕ) (hg : g < G) (hr : rf g = r)
    (h : ∀ x, x < G → x ≠ g → rf x ≠ r) :
    ((List.range G).map (fun x => (⟨d x, rf x, c x⟩ : Triplet))).filter
      (fun t => t.row == r) = [⟨d g, rf g, c g⟩] := by
  rw [filter_row_seg]
  rw [filter_range_singleton G g _ hg
    (by simp only [triplet_row_mk, beq_iff_eq]; exact hr)
    (fun x hx hxg => by
      simp only [triplet_row_mk, beq_eq_false_iff_ne, ne_eq]
      exact h x hx hxg)]
  simp

lemma tiger_filter_listen (grid : List ℚ) (pL pR : ℚ) (g : ℕ)
    (hg : g < grid.length) :
    (tiger_triplets grid pL pR).filter (fun t => t.row == 3 * g) =
      [⟨prob_TL (grid.getD g 0) pL pR, 3 * g,
        nearest_idx grid ((bayes_update_TL (grid.getD g 0) pL pR).getD 0)⟩,
       ⟨prob_TR (grid.getD g 0) pL pR, 3 * g,
        nearest_idx grid ((bayes_update_TR (grid.getD g 0) pL pR).getD 0)⟩] := by
  unfold tiger_triplets
  rw [List.filter_append, List.filter_append, List.filter_append]
  rw [filter_seg_singleton _ (fun x => 3 * x) _ grid.length g (3 * g) hg rfl
    (fun x _ hxg he => hxg (by simp only [] at he; omega))]
  rw [filter_seg_singleton _ (fun x => 3 * x) _ grid.length g (3 * g) hg rfl
    (fun x _ hxg he => hxg (by simp only [] at he; omega))]
  rw [filter_seg_nil _ (fun x => 3 * x + 1) _ grid.length (3 * g)
    (fun x _ he => by simp only [] at he; omega)]
  rw [filter_seg_nil _ (fun x => 3 * x + 2) _ grid.length (3 * g)
    (fun x _ he => by simp only [] at he; omega)]
  rfl

lemma tiger_filter_open (grid : List ℚ) (pL pR : ℚ) (g a : ℕ)
    (hg : g < grid.length) (ha : a = 1 ∨ a = 2) :
    (tiger_triplets grid pL pR).filter (fun t => t.row == 3 * g + a) =
      [⟨1, 3 * g + a, prob_half_idx grid⟩] := by
  unfold tiger_triplets
  rw [List.filter_append, List.filter_append, List.filter_append]
  rcases ha with ha | ha <;> subst ha
  · rw [filter_seg_nil _ (fun x => 3 * x) _ grid.length (3 * g + 1)
      (fun x _ he => by simp only [] at he; omega)]
    rw [filter_seg_nil _ (fun x => 3 * x) _ grid.length (3 * g + 1)
      (fun x _ he => by simp only [] at he; omega)]
    rw [filter_seg_singleton _ (fun x => 3 * x + 1) _ grid.length g (3 * g + 1)
      hg rfl (fun x _ hxg he => hxg (by simp only [] at he; omega))]
    rw [filter_seg_nil _ (fun x => 3 * x + 2) _ grid.length (3 * g + 1)
      (fun x _ he => by simp only [] at he; omega)]
    rfl
  · rw [filter_seg_nil _ (fun x => 3 * x) _ grid.length (3 * g + 2)
      (fun x _ he => by simp only [] at he; omega)]
    rw [filter_seg_nil _ (fun x => 3 * x) _ grid.length (3 * g + 2)
      (fun x _ he => by simp only [] at he; omega)]
    rw [filter_seg_nil _ (fun x => 3 * x + 1) _ grid.length (3 * g + 2)
      (fun x _ he => by simp only [] at he; omega)]
    rw [filter_seg_singleton _ (fun x => 3 * x + 2) _ grid.length g (3 * g + 2)
      hg rfl (fun x _ hxg he => hxg (by simp only [] at he; omega))]
    rfl

/-- C1: for every strictly increasing belief grid over `[0,1]` and noise
parameters with nonzero observation probabilities on the grid, every row
`3*g + a` (action `a ∈ {Listen, OpenL, OpenR}`) of the transition operator
assembled by `tiger_mdp` sums to exactly 1 over the target grid indices,
after duplicate `(row, col)` entries are merged by summation. -/
theorem tiger_rows_sum_to_one (grid : List ℚ) (pL pR : ℚ)
    (_hmono : grid.Pairwise (· < ·))
    (_hrange : ∀ b ∈ grid, 0 ≤ b ∧ b ≤ 1)
    (_hnz : ∀ b ∈ grid, prob_TL b pL pR ≠ 0 ∧ prob_TR b pL pR ≠ 0)
    (g a : ℕ) (hg : g < grid.length) (ha : a < 3) :
    ∑ c ∈ Finset.range grid.length,
      Q_val (tiger_triplets grid pL pR) (3 * g + a) c = 1 := by
  have hG1 : 1 ≤ grid.length := by omega
  rw [sum_Q_val _ _ _ (tiger_triplets_col_lt grid pL pR hG1)]
  interval_cases a
  · rw [show 3 * g + 0 = 3 * g from rfl, row_data_eq_filter,
      tiger_filter_listen grid pL pR g hg]
    have hsum := prob_TL_add_prob_TR (grid.getD g 0) pL pR
    simp only [List.map_cons, List.map_nil, List.sum_cons, List.sum_nil]
    linarith
  · rw [row_data_eq_filter, tiger_filter_open grid pL pR g 1 hg (Or.inl rfl)]
    simp
  · rw [row_data_eq_filter, tiger_filter_open grid pL pR g 2 hg (Or.inr rfl)]
    simp

/-- C1 witness: on the grid `[0, 1/2, 1]` with the default noise `3/20`,
the Listen row of grid point 0 sums to 1 (its two entries both target
index 0 and are merged). -/
theorem tiger_rows_sum_to_one_witness :
    ∑ c ∈ Finset.range ([(0:ℚ), 1/2, 1].length),
      Q_val (tiger_triplets [(0:ℚ), 1/2, 1] (3/20) (3/20)) (3 * 0 + 0) c = 1 :=
  tiger_rows_sum_to_one [(0:ℚ), 1/2, 1] (3/20) (3/20)
    (by norm_num)
    (by intro b hb; fin_cases hb <;> norm_num)
    (by intro b hb; fin_cases hb <;> norm_num [prob_TL, prob_TR])
    0 0 (by norm_num) (by norm_num)

/-- C2: for every grid index `g` and each door action `a ∈ {OpenL, OpenR}`,
the assembled transition row `3*g + a` contains exactly one entry, with
probability 1, whose target is `prob_half_idx`; that target minimizes the
absolute distance of the belief value to `1/2` over all grid indices, and
when the (strictly increasing) grid contains an exact `1/2` point, the
target is precisely that index. -/
theorem tiger_open_rows_reset (grid : List ℚ) (pL pR : ℚ)
    (hmono : grid.Pairwise (· < ·)) (g a : ℕ)
    (hg : g < grid.length) (ha : a = 1 ∨ a = 2) :
    (tiger_triplets grid pL pR).filter (fun t => t.row == 3 * g + a) =
      [⟨1, 3 * g + a, prob_half_idx grid⟩] ∧
    (∀ i, i < grid.length →
      |grid.getD (prob_half_idx grid) 0 - 1/2| ≤ |grid.getD i 0 - 1/2|) ∧
    (∀ j, j < grid.length → grid.getD j 0 = 1/2 → prob_half_idx grid = j) := by
  have hne : grid ≠ [] := by
    intro he
    rw [he] at hg
    simp at hg
  exact ⟨tiger_filter_open grid pL pR g a hg ha,
    fun i hi => prob_half_idx_min grid hne i hi,
    fun j hj hv => prob_half_idx_exact grid hmono j hj hv⟩

/-- C2 witness: on the grid `[0, 1/2, 1]`, the OpenL row of grid point 0 is
the single entry with probability 1 targeting `prob_half_idx`, and the
exact `1/2` grid point at index 1 is that target. -/
theorem tiger_open_rows_reset_witness :
    (tiger_triplets [(0:ℚ), 1/2, 1] (3/20) (3/20)).filter
        (fun t => t.row == 3 * 0 + 1) =
      [⟨1, 3 * 0 + 1, prob_half_idx [(0:ℚ), 1/2, 1]⟩] ∧
    prob_half_idx [(0:ℚ), 1/2, 1] = 1 :=
  ⟨(tiger_open_rows_reset [(0:ℚ), 1/2, 1] (3/20) (3/20) (by norm_num) 0 1
      (by norm_num) (Or.inl rfl)).1,
   (tiger_open_rows_reset [(0:ℚ), 1/2, 1] (3/20) (3/20) (by norm_num) 0 1
      (by norm_num) (Or.inl rfl)).2.2 1 (by norm_num) (by norm_num)⟩

/-- C9 (implicit): for every strictly increasing grid of size `G ≥ 1` and
every input `v` (also outside `[0,1]`), `nearest_idx` returns an index
`< G`; consequently every target column index written by the transition
assembler refers to a valid grid point. -/
theorem tiger_targets_in_range (grid : List ℚ) (pL pR : ℚ)
    (_hmono : grid.Pairwise (· < ·)) (hG : 1 ≤ grid.length) :
    (∀ v : ℚ, nearest_idx grid v < grid.length) ∧
    (∀ t ∈ tiger_triplets grid pL pR, t.col < grid.length) :=
  ⟨nearest_idx_lt grid hG, tiger_triplets_col_lt grid pL pR hG⟩

/-- C9 witness: on the grid `[0, 1]`, resolving the out-of-range value `5`
still yields an index below 2. -/
theorem tiger_targets_in_range_witness :
    nearest_idx [(0:ℚ), 1] 5 < ([(0:ℚ), 1]).length :=
  (tiger_targets_in_range [(0:ℚ), 1] (3/20) (3/20)
    (by norm_num) (by norm_num)).1 5

/-- C10 (implicit): the triplet arrays `data`, `row`, `col` are allocated
with length `grid_size*(num_actions+1) = 4*G` and are completely
overwritten before the sparse matrix is built: the four written slices
(two from the Listen branch, one per door action) cover exactly the
positions `[0, 4*G)`, and the assembled triplet list indeed has exactly
`4 * G` entries, so no uninitialized element reaches the transition
operator. -/
theorem tiger_writes_cover (G : ℕ) (grid : List ℚ) (pL pR : ℚ) :
    tiger_written G = Finset.range (4 * G) ∧
    (tiger_triplets grid pL pR).length = 4 * grid.length := by
  constructor
  · ext x
    simp only [tiger_written, slice_idx, Finset.mem_union, Finset.mem_image,
      Finset.mem_range]
    constructor
    · rintro (((⟨i, hi, rfl⟩ | ⟨i, hi, rfl⟩) | ⟨i, hi, rfl⟩) | ⟨i, hi, rfl⟩) <;>
        omega
    · intro hx
      by_cases h1 : x < G
      · exact Or.inl (Or.inl (Or.inl ⟨x, h1, by omega⟩))
      · by_cases h2 : x < 2 * G
        · exact Or.inl (Or.inl (Or.inr ⟨x - G, by omega, by omega⟩))
        · by_cases h3 : x < 3 * G
          · exact Or.inl (Or.inr ⟨x - 2 * G, by omega, by omega⟩)
          · exact Or.inr ⟨x - 3 * G, by omega, by omega⟩
  · simp only [tiger_triplets, List.length_append, List.length_map,
      List.length_range]
    omega

lemma tiger_R_cons (b : ℚ) (gs : List ℚ) :
    tiger_R (b :: gs) =
      tiger_cost
        :: (tiger_penalty * (1 - b) + tiger_reward * b)
        :: (tiger_reward * (1 - b) + tiger_penalty * b)
        :: tiger_R gs := rfl

lemma tiger_R_getD (grid : List ℚ) (g : ℕ) (hg : g < grid.length)
    (a : ℕ) (ha : a < 3) :
    (tiger_R grid).getD (3 * g + a) 0 =
      [tiger_cost,
       tiger_penalty * (1 - grid.getD g 0) + tiger_reward * grid.getD g 0,
       tiger_reward * (1 - grid.getD g 0) + tiger_penalty * grid.getD g 0].getD a 0 := by
  induction grid generalizing g with
  | nil => simp at hg
  | cons b gs ih =>
    rw [tiger_R_cons]
    cases g with
    | zero => interval_cases a <;> rfl
    | succ g =>
      have hidx : 3 * (g + 1) + a = 3 * g + a + 1 + 1 + 1 := by omega
      rw [hidx, List.getD_cons_succ, List.getD_cons_succ, List.getD_cons_succ]
      have htail : (b :: gs).getD (g + 1) 0 = gs.getD g 0 := rfl
      rw [htail]
      exact ih g (by simpa [Nat.succ_lt_succ_iff] using hg)

/-- C6: the reward assembler puts, at flattened index `g*3 + a` with
`b = grid[g]`: `Reward(g, Listen) = cost`,
`Reward(g, OpenL) = penalty*(1-b) + reward*b`,
`Reward(g, OpenR) = reward*(1-b) + penalty*b`; in particular on the grid
`[0, 1/4, 1/2, 3/4, 1]` with `reward = 10`, `penalty = -100`, `cost = -1`,
it yields `Reward(0, OpenR) = 10`, `Reward(4, OpenR) = -100` and
`Reward(2, Listen) = -1`. -/
theorem tiger_reward_values (grid : List ℚ) (g : ℕ) (hg : g < grid.length) :
    ((tiger_R grid).getD (3 * g) 0 = tiger_cost ∧
     (tiger_R grid).getD (3 * g + 1) 0 =
       tiger_penalty * (1 - grid.getD g 0) + tiger_reward * grid.getD g 0 ∧
     (tiger_R grid).getD (3 * g + 2) 0 =
       tiger_reward * (1 - grid.getD g 0) + tiger_penalty * grid.getD g 0) ∧
    ((tiger_R [0, 1/4, 1/2, 3/4, 1]).getD (0 * 3 + 2) 0 = 10 ∧
     (tiger_R [0, 1/4, 1/2, 3/4, 1]).getD (4 * 3 + 2) 0 = -100 ∧
     (tiger_R [0, 1/4, 1/2, 3/4, 1]).getD (2 * 3 + 0) 0 = -1) := by
  refine ⟨⟨?_, ?_, ?_⟩, ?_, ?_, ?_⟩
  · exact tiger_R_getD grid g hg 0 (by norm_num)
  · exact tiger_R_getD grid g hg 1 (by norm_num)
  · exact tiger_R_getD grid g hg 2 (by norm_num)
  · norm_num [tiger_R, tiger_reward, tiger_penalty, tiger_cost]
  · norm_num [tiger_R, tiger_reward, tiger_penalty, tiger_cost]
  · norm_num [tiger_R, tiger_reward, tiger_penalty, tiger_cost]

/-- C6 witness: on the grid `[0, 1/4, 1/2, 3/4, 1]`, the Listen reward at
grid index 2 is the cost constant `-1`. -/
theorem tiger_reward_values_witness :
    (tiger_R [0, 1/4, 1/2, 3/4, 1]).getD (3 * 2) 0 = tiger_cost :=
  (tiger_reward_values [0, 1/4, 1/2, 3/4, 1] 2 (by norm_num)).1.1

end PomdpTiger
